import Mathlib

/-!
Verification development for the Parareal solver (`Parareal.py`).

The source file provides four functions: `CoarseSolver`, `FineSolver`,
`RungeKutta` and `Parareal`.  We embed them shallowly:

* Machine floats are modelled by the domain `Val`: a finite rational,
  `+inf`, `-inf`, or `nan`, with IEEE-754 rules for the arithmetic that
  the source performs (`0 * inf = nan`, `inf - inf = nan`, comparisons
  with `nan` are false, `np.isnan` detects only `nan`, `np.maximum`
  propagates `nan`).  Wall-clock timing (`time.time()` and the arrays
  `timesG`/`timesF`, pure diagnostics) is outside the embedding.
* The numpy state matrices `u`, `uG`, `uF`, `err` become total functions
  `Nat → Nat → Val` updated by explicit segment writes.
* Python's early `return` on invalid input, and the exception raised on
  the divergence path, become constructors of `PyOutcome`.
-/

/-- IEEE-754-style scalar: a finite rational, an infinity, or NaN. -/
inductive Val where
  | fin : ℚ → Val
  | inf : Val
  | ninf : Val
  | nan : Val
deriving DecidableEq

namespace Val

/-- IEEE negation. -/
def neg : Val → Val
  | fin q => fin (-q)
  | inf => ninf
  | ninf => inf
  | nan => nan

/-- IEEE addition: `nan` absorbs, `inf + (-inf) = nan`. -/
def add : Val → Val → Val
  | nan, _ => nan
  | _, nan => nan
  | inf, ninf => nan
  | ninf, inf => nan
  | inf, _ => inf
  | _, inf => inf
  | ninf, _ => ninf
  | _, ninf => ninf
  | fin a, fin b => fin (a + b)

/-- IEEE subtraction, as `x + (-y)`. -/
def sub (x y : Val) : Val := x.add y.neg

/-- IEEE multiplication: `nan` absorbs, `0 * (±inf) = nan`, sign rules. -/
def mul : Val → Val → Val
  | nan, _ => nan
  | _, nan => nan
  | fin a, inf => if 0 < a then inf else if a < 0 then ninf else nan
  | fin a, ninf => if 0 < a then ninf else if a < 0 then inf else nan
  | inf, fin b => if 0 < b then inf else if b < 0 then ninf else nan
  | ninf, fin b => if 0 < b then ninf else if b < 0 then inf else nan
  | inf, inf => inf
  | inf, ninf => ninf
  | ninf, inf => ninf
  | ninf, ninf => inf
  | fin a, fin b => fin (a * b)

/-- IEEE strict less-than: any comparison with `nan` is false. -/
def blt : Val → Val → Bool
  | nan, _ => false
  | _, nan => false
  | ninf, ninf => false
  | ninf, _ => true
  | _, ninf => false
  | inf, _ => false
  | fin _, inf => true
  | fin a, fin b => decide (a < b)

/-- IEEE absolute value. -/
def vabs : Val → Val
  | fin q => fin |q|
  | inf => inf
  | ninf => inf
  | nan => nan

/-- The `np.isnan` test: true exactly on `nan` (infinities are NOT NaN). -/
def isnan : Val → Bool
  | nan => true
  | _ => false

/-- The `np.maximum` of two scalars: `nan` propagates. -/
def vmax : Val → Val → Val
  | nan, _ => nan
  | _, nan => nan
  | inf, _ => inf
  | _, inf => inf
  | ninf, y => y
  | x, ninf => x
  | fin a, fin b => fin (max a b)

end Val

/-- Elementwise vector addition (`numpy +` on equal-length 1-D arrays). -/
def addV (x y : List Val) : List Val := List.zipWith Val.add x y

/-- Elementwise vector subtraction. -/
def subV (x y : List Val) : List Val := List.zipWith Val.sub x y

/-- Scalar times vector (`dt * f(...)`, `a[i,j] * k[:,j]`, ...). -/
def smulV (q : ℚ) (v : List Val) : List Val := v.map (fun x => Val.mul (Val.fin q) x)

/-- Python `int(...)` on a real value: truncation toward zero. -/
def truncQ (q : ℚ) : ℤ := if q < 0 then ⌈q⌉ else ⌊q⌋

/-- Entry `a[i, j]` of a tableau matrix given as a list of rows. -/
def aGet (a : List (List ℚ)) (i j : Nat) : ℚ := (a.getD i []).getD j 0

/-- Entry `c[i]` (or `b[i]`) of a tableau vector. -/
def cGet (c : List ℚ) (i : Nat) : ℚ := c.getD i 0

/-- The stage matrix `k` of one Runge-Kutta step, as the list of its
columns `k[:, 0], ..., k[:, S-1]` (source lines 166-174 and 193-201:
`k[:, 0] = dt*f(tn, un)`, then for `i = 1..S-1` the accumulated
`temp = Σ_{j<i} a[i,j] k[:,j]` and `k[:, i] = dt*f(tn + c[i]*dt, un + temp)`). -/
def rkStages (a : List (List ℚ)) (b c : List ℚ) (dt : ℚ)
    (f : ℚ → List Val → List Val) (tn : ℚ) (un : List Val) : List (List Val) :=
  let dim := un.length
  let k1 := smulV dt (f tn un)
  (List.range' 1 (b.length - 1)).foldl
    (fun ks i =>
      let temp := (List.range i).foldl
        (fun tmp j => addV tmp (smulV (aGet a i j) (ks.getD j [])))
        (List.replicate dim (Val.fin 0))
      ks ++ [smulV dt (f (tn + cGet c i * dt) (addV un temp))])
    [k1]

/-- The row sums `np.sum(b * k, axis=1)`: for each component `r` the
left-to-right accumulation of `b[i] * k[r, i]` (numpy's sequential
`add.reduce`; harmless extra `0 +` at the front). -/
def sumBK (b : List ℚ) (ks : List (List Val)) (dim : Nat) : List Val :=
  (List.range dim).map (fun r =>
    (List.range b.length).foldl
      (fun acc i => Val.add acc (Val.mul (Val.fin (cGet b i)) ((ks.getD i []).getD r Val.nan)))
      (Val.fin 0))

/-- One explicit Runge-Kutta step `un + np.sum(b * k, axis=1)`
(the loop body shared verbatim by the `dense == False` and
`dense == True` branches of `RungeKutta`, source lines 158-177 / 185-204). -/
def rkStep (a : List (List ℚ)) (b c : List ℚ) (dt : ℚ)
    (f : ℚ → List Val → List Val) (tn : ℚ) (un : List Val) : List Val :=
  addV un (sumBK b (rkStages a b c dt f tn un) un.length)

/-- The `dense == False` branch: iterate the step from `u0`, with
`tn = tspan[0] + n*dt`, returning only the final state (value level;
the in-place `un += ...` aliasing is modelled separately below). -/
def rkFinal (a : List (List ℚ)) (b c : List ℚ) (t0 dt : ℚ) (steps : Nat)
    (u0 : List Val) (f : ℚ → List Val → List Val) : List Val :=
  (List.range steps).foldl (fun un (n : Nat) => rkStep a b c dt f (t0 + n * dt) un) u0

/-- The `dense == True` branch: the whole trajectory
`un[0,:] = u0, un[n+1,:] = un[n,:] + ...` (same step body). -/
def rkDense (a : List (List ℚ)) (b c : List ℚ) (t0 dt : ℚ) (steps : Nat)
    (u0 : List Val) (f : ℚ → List Val → List Val) : List (List Val) :=
  (List.range steps).scanl (fun un (n : Nat) => rkStep a b c dt f (t0 + n * dt) un) u0

/-- The Runge-Kutta methods used by the claims and by the two solvers.
`RK5`-`RK7` are never selected in this repository and are omitted from
the registry; `RK8` involves `sqrt(21)` and has no rational tableau. -/
inductive RKMethod where
  | RK1
  | RK2
  | RK3
  | RK4
deriving DecidableEq

/-- Tableau registry (source lines 84-99): `(a, b, c)` per method. -/
def tableau : RKMethod → List (List ℚ) × List ℚ × List ℚ
  | .RK1 => ([[0]], [1], [0])
  | .RK2 => ([[0, 0], [1/2, 0]], [0, 1], [0, 1/2])
  | .RK3 => ([[0, 0, 0], [1/2, 0, 0], [-1, 2, 0]], [1/6, 2/3, 1/6], [0, 1/2, 1])
  | .RK4 => ([[0, 0, 0, 0], [1/2, 0, 0, 0], [0, 1/2, 0, 0], [0, 0, 1, 0]],
             [1/6, 1/3, 1/3, 1/6], [0, 1/2, 1/2, 1])

/-- `num_time_steps = int((tspan[-1] - tspan[0]) / dt) + 1` (line 152). -/
def numTimeSteps (t0 t1 dt : ℚ) : ℤ := truncQ ((t1 - t0) / dt) + 1

/-- The number of loop iterations `range(num_time_steps - 1)`. -/
def rkStepCount (t0 t1 dt : ℚ) : Nat := (numTimeSteps t0 t1 dt - 1).toNat

/-- Result shape of `RungeKutta`: a single state (`dense == False`) or a
trajectory (`dense == True`). -/
inductive RKResult where
  | single (u : List Val)
  | traj (us : List (List Val))
deriving DecidableEq

/-- Final state of an `RKResult` (for a trajectory, its last row). -/
def RKResult.finalState : RKResult → List Val
  | .single u => u
  | .traj us => us.getLastD []

/-- The state carried in a `single` result (`[]` on a trajectory; only
used at `dense = false` call sites, mirroring how `Parareal` consumes
the solver output as one state vector). -/
def RKResult.getSingle : RKResult → List Val
  | .single u => u
  | .traj _ => []

/-- `RungeKutta(tspan, dt, u0, f, method, dense)` (source lines 82-210),
with the method already resolved to a registry entry (the source's
unknown-method `print`-and-return arm cannot arise for the closed
`RKMethod` type). -/
def RungeKutta (t0 t1 dt : ℚ) (u0 : List Val) (f : ℚ → List Val → List Val)
    (method : RKMethod) (dense : Bool) : RKResult :=
  let abc := tableau method
  if dense then
    .traj (rkDense abc.1 abc.2.1 abc.2.2 t0 dt (rkStepCount t0 t1 dt) u0 f)
  else
    .single (rkFinal abc.1 abc.2.1 abc.2.2 t0 dt (rkStepCount t0 t1 dt) u0 f)

/-- `CoarseSolver` (source lines 49-51): `RungeKutta` with `RK2`. -/
def CoarseSolver (t0 t1 dt : ℚ) (u0 : List Val) (f : ℚ → List Val → List Val)
    (dense : Bool) : RKResult :=
  RungeKutta t0 t1 dt u0 f .RK2 dense

/-- `FineSolver` (source lines 54-56): `RungeKutta` with `RK4`. -/
def FineSolver (t0 t1 dt : ℚ) (u0 : List Val) (f : ℚ → List Val → List Val)
    (dense : Bool) : RKResult :=
  RungeKutta t0 t1 dt u0 f .RK4 dense

/-! ## The Parareal coordinator -/

/-- A numpy-style 2-D storage matrix, as a total function on indices. -/
abbrev Mat := Nat → Nat → Val

/-- Read the row segment `M[i, lo : lo+len]`. -/
def rowSeg (M : Mat) (i lo len : Nat) : List Val :=
  (List.range len).map (fun j => M i (lo + j))

/-- Write the row segment `M[i, lo : lo+|v|] = v`. -/
def writeSeg (M : Mat) (i lo : Nat) (v : List Val) : Mat :=
  fun r c =>
    if r = i ∧ lo ≤ c ∧ c < lo + v.length then v.getD (c - lo) Val.nan else M r c

/-- `np.tile(v, m)`: `m` copies of `v` concatenated. -/
def tileL (v : List Val) (m : Nat) : List Val := (List.replicate m v).flatten

/-- The inputs of one `Parareal` run:
`Parareal(f, tspan, u0, N, Ng, Nf, epsilon, parallel)` minus the
`parallel` flag, which the definitions below take separately. -/
structure PPrb where
  f : ℚ → List Val → List Val
  t0 : ℚ
  t1 : ℚ
  u0 : List Val
  N : Nat
  Ng : Nat
  Nf : Nat
  eps : ℚ

/-- `n = len(u0)`, the ODE system dimension. -/
def PPrb.n (P : PPrb) : Nat := P.u0.length

/-- `L_sub = L / N`, length of one time slice. -/
def PPrb.Lsub (P : PPrb) : ℚ := (P.t1 - P.t0) / P.N

/-- `dT = L / Ng`, the coarse step. -/
def PPrb.dT (P : PPrb) : ℚ := (P.t1 - P.t0) / P.Ng

/-- `dt = L / Nf`, the fine step. -/
def PPrb.dt (P : PPrb) : ℚ := (P.t1 - P.t0) / P.Nf

/-- The time mesh `t = np.arange(tspan[0], tspan[1] + L_sub, L_sub)`
(in exact arithmetic: `t[i] = t0 + i * L_sub`, `i = 0..N`). -/
def PPrb.tmesh (P : PPrb) (i : Nat) : ℚ := P.t0 + i * P.Lsub

/-- The coordinator's mutable state at a point of one run: the three
solution matrices, the successive-error matrix, the convergence frontier
`I`, and the unconverged-slice counts.  `IHist` is a verification ghost
recording the value of `I` after initialization and after each executed
outer iteration; it influences nothing. -/
@[ext]
structure PRState where
  u : Mat
  uG : Mat
  uF : Mat
  err : Mat
  I : Nat
  slices : Nat → ℚ
  IHist : List Nat

/-- The initialization block (source lines 260-284): matrices filled with
NaN, row 0 of `u`, `uG`, `uF` tiled with the initial condition,
`I = 0`, `slices[0] = N`. -/
def pInit (P : PPrb) : PRState :=
  let row0 : Nat → Val := fun c => P.u0.getD (c % P.n) Val.nan
  { u := fun r c => if r = 0 then row0 c else Val.nan
    uG := fun r c => if r = 0 then row0 c else Val.nan
    uF := fun r c => if r = 0 then row0 c else Val.nan
    err := fun _ _ => Val.nan
    I := 0
    slices := fun j => if j = 0 then (P.N : ℚ) else 0
    IHist := [0] }

/-- Step 1, `k = 0` (source lines 290-297): the sequential coarse sweep
seeding `uG[i+1, 0:n]` and `u[i+1, 0:n]`. -/
def bootstrap (P : PPrb) : PRState :=
  (List.range P.N).foldl
    (fun st i =>
      let temp := (CoarseSolver (P.tmesh i) (P.tmesh (i+1)) P.dT
        (rowSeg st.uG i 0 P.n) P.f false).getSingle
      { st with uG := writeSeg st.uG (i+1) 0 temp
                u := writeSeg st.u (i+1) 0 temp })
    (pInit P)

/-- The `parallel == False` fine stage of iteration `k` (source lines
320-327): for `i = I..N-1` run `FineSolver` from `u[i, n(k-1):nk]` and
store into `uF[i+1, n(k-1):nk]`. -/
def fineSeq (P : PPrb) (k : Nat) (st : PRState) : PRState :=
  (List.range' st.I (P.N - st.I)).foldl
    (fun s i =>
      let temp := (FineSolver (P.tmesh i) (P.tmesh (i+1)) P.dt
        (rowSeg s.u i (P.n * (k-1)) P.n) P.f false).getSingle
      { s with uF := writeSeg s.uF (i+1) (P.n * (k-1)) temp })
    st

/-- The `parallel == True` fine stage (source lines 329-341): build the
input list for `i = I..N-1`, map `FineSolver` over it (the worker pool),
and write the stacked results into rows `I+1..N` of `uF` at the current
column block (`uF[I+1:, dim_indices] = np.vstack(results)`).  `np.vstack`
of an empty list would raise, but the loop only runs with `I < N`. -/
def finePar (P : PPrb) (k : Nat) (st : PRState) : PRState :=
  let results := (List.range' st.I (P.N - st.I)).map
    (fun i => (FineSolver (P.tmesh i) (P.tmesh (i+1)) P.dt
      (rowSeg st.u i (P.n * (k-1)) P.n) P.f false).getSingle)
  { st with uF := fun r c =>
      if st.I + 1 ≤ r ∧ r ≤ P.N ∧ P.n * (k-1) ≤ c ∧ c < P.n * (k-1) + P.n then
        (results.getD (r - (st.I + 1)) []).getD (c - P.n * (k-1)) Val.nan
      else st.uF r c }

/-- The sequential predictor-corrector stage (source lines 350-361):
for `i = I..N-1`, `uG[i+1, next] = G(u[i, next])`, then
`u[i+1, next] = uG[i+1, next] + uF[i+1, cur] - uG[i+1, cur]`. -/
def corrStage (P : PPrb) (k : Nat) (st : PRState) : PRState :=
  (List.range' st.I (P.N - st.I)).foldl
    (fun s i =>
      let lo := P.n * k
      let lo1 := P.n * (k-1)
      let temp := (CoarseSolver (P.tmesh i) (P.tmesh (i+1)) P.dT
        (rowSeg s.u i lo P.n) P.f false).getSingle
      let s1 := { s with uG := writeSeg s.uG (i+1) lo temp }
      let corr := subV (addV (rowSeg s1.uG (i+1) lo P.n) (rowSeg s1.uF (i+1) lo1 P.n))
        (rowSeg s1.uG (i+1) lo1 P.n)
      { s1 with u := writeSeg s1.u (i+1) lo corr })
    st

/-- The divergence check `np.isnan(uG[:, dim_indices_next]).any()`
(source line 366): NaN anywhere in the iteration-`k` coarse column.
Infinite entries are NOT detected (`np.isnan(inf) = False`). -/
def uGColHasNaN (P : PPrb) (k : Nat) (st : PRState) : Bool :=
  (List.range (P.N + 1)).any
    (fun r => (List.range P.n).any (fun j => (st.uG r (P.n * k + j)).isnan))

/-- The error update (source line 375):
`err[:, k-1] = norm(u[:, next] - u[:, cur], ord=inf, axis=1)`. -/
def infNormV (v : List Val) : Val := (v.map Val.vabs).foldl Val.vmax (Val.fin 0)

/-- Write column `k-1` of `err` for all rows `0..N`. -/
def errUpdate (P : PPrb) (k : Nat) (st : PRState) : PRState :=
  { st with err := fun r c =>
      if r ≤ P.N ∧ c = k - 1 then
        infNormV (subV (rowSeg st.u r (P.n * k) P.n) (rowSeg st.u r (P.n * (k-1)) P.n))
      else st.err r c }

/-- Freezing slice `p` at iteration `k` (source lines 381-384 / 388-391):
copy the converged values forward into all remaining iteration slots
(`u[p+1, n(k+1):] = tile(u[p+1, next], N-k)`, likewise `uG`, and
`uF[p+1, nk:] = tile(uF[p+1, cur], N-k+1)`) and advance the frontier. -/
def freezeSlice (P : PPrb) (k p : Nat) (st : PRState) : PRState :=
  { st with
    u := writeSeg st.u (p+1) (P.n * (k+1)) (tileL (rowSeg st.u (p+1) (P.n * k) P.n) (P.N - k))
    uG := writeSeg st.uG (p+1) (P.n * (k+1)) (tileL (rowSeg st.uG (p+1) (P.n * k) P.n) (P.N - k))
    uF := writeSeg st.uF (p+1) (P.n * k) (tileL (rowSeg st.uF (p+1) (P.n * (k-1)) P.n) (P.N - k + 1))
    I := st.I + 1 }

/-- The convergence scan (source lines 377-393): `for p in range(II, N)`,
freeze `p == II` unconditionally ("we know I is now converged"), freeze
`p > II` only when `err[p, k-1] < epsilon`, and `break` at the first
`p > II` failing the test. -/
def convScan (P : PPrb) (k II : Nat) : List Nat → PRState → PRState
  | [], st => st
  | p :: rest, st =>
    if p = II then convScan P k II rest (freezeSlice P k p st)
    else if Val.blt (st.err p (k-1)) (Val.fin P.eps) then
      convScan P k II rest (freezeSlice P k p st)
    else st

/-- The body of outer iteration `k` (source lines 314-395): fine stage
(parallel or sequential), predictor-corrector stage, divergence check
(`True` = `a = np.nan; break`, skipping the convergence bookkeeping),
otherwise error update, convergence scan and `slices[k] = N - I`. -/
def iterBody (P : PPrb) (par : Bool) (k : Nat) (st : PRState) : PRState × Bool :=
  let st1 := if par then finePar P k st else fineSeq P k st
  let st2 := corrStage P k st1
  if uGColHasNaN P k st2 then (st2, true)
  else
    let st3 := errUpdate P k st2
    let st4 := convScan P k st3.I (List.range' st3.I (P.N - st3.I)) st3
    ({ st4 with slices := fun j => if j = k then (P.N : ℚ) - st4.I else st4.slices j
                IHist := st4.IHist ++ [st4.I] }, false)

/-- The outer loop `for k in range(1, N+1)` (source lines 303-399) with
its two `break`s: on divergence (returning `crashed = true`) and on
`I == N`.  Returns `(k, crashed, state)` where `k` is the Python loop
variable's value after the loop (the last executed iteration). -/
def pararealFor (P : PPrb) (par : Bool) : List Nat → Nat → PRState → Nat × Bool × PRState
  | [], kLast, st => (kLast, false, st)
  | k :: rest, _, st =>
    let sc := iterBody P par k st
    if sc.2 then (k, true, sc.1)
    else if sc.1.I = P.N then (k, false, sc.1)
    else pararealFor P par rest k sc.1

/-- Bootstrap plus outer loop (everything between validation and the
output block).  The initial `kLast = 0` is never returned for `N ≥ 1`
(post-validation `N = 0` is unreachable: `Ng % 0` raises first). -/
def pararealCoreRun (P : PPrb) (par : Bool) : Nat × Bool × PRState :=
  pararealFor P par (List.range' 1 P.N) 0 (bootstrap P)

/-- The data returned by a successful `Parareal` run: the time mesh `t`,
the sliced solution matrix `u = u[:, n:n*(k+1)]` (line 402), and the
diagnostics dictionary minus its wall-clock entries (`Iterations`,
`Errors = err[:, :k]`, `Slices = slices[0:k+1]`), plus the `IHist`
verification ghost. -/
structure PRResult where
  t : List ℚ
  u : List (List Val)
  k : Nat
  errs : List (List Val)
  slices : List ℚ
  IHist : List Nat
deriving DecidableEq

/-- What a `Parareal` call does, seen from Python: return `None` (the
validation `print` + `return`, line 266), raise `ZeroDivisionError`
(`%` with zero modulus in the validation test itself, line 264), raise
`TypeError` (the divergence path sets `k = np.nan` at line 406 and then
slices `err[:, :k]` / `timesF[:, 0:k+1]` / `slices[0:k+1]` with a float
NaN bound at lines 418-422, which numpy rejects), or return the triple
`(t, u, diagnostics)`. -/
inductive PyOutcome where
  | retNone
  | zeroDivError
  | typeError
  | ok (res : PRResult)
deriving DecidableEq

/-- `Parareal` reported a fatal input error before doing any solver work:
either the divisibility `print`-and-`return None`, or the
`ZeroDivisionError` raised by `%` when `N` or `Ng` is zero. -/
def PyOutcome.isFatalInputError : PyOutcome → Bool
  | retNone => true
  | zeroDivError => true
  | _ => false

/-- `Parareal(f, tspan, u0, N, Ng, Nf, epsilon, parallel)`
(source lines 247-427). -/
def Parareal (P : PPrb) (par : Bool) : PyOutcome :=
  if P.N = 0 then .zeroDivError
  else if P.Ng % P.N ≠ 0 then .retNone
  else if P.Ng = 0 then .zeroDivError
  else if P.Nf % P.Ng ≠ 0 then .retNone
  else
    let r := pararealCoreRun P par
    let k := r.1
    let st := r.2.2
    if r.2.1 then .typeError
    else .ok {
      t := (List.range (P.N + 1)).map (fun i => P.tmesh i)
      u := (List.range (P.N + 1)).map
        (fun i => (List.range (P.n * k)).map (fun j => st.u i (P.n + j)))
      k := k
      errs := (List.range (P.N + 1)).map
        (fun r2 => (List.range k).map (fun c => st.err r2 c))
      slices := (List.range (k + 1)).map (fun j => st.slices j)
      IHist := st.IHist }

/-! ## Aliasing model of the `dense == False` stepper

`RungeKutta`'s `dense == False` branch executes `un = u0` (binding `un`
to the caller's array object) and then `un += np.sum(b * k, axis=1)`
(lines 157 and 177), an in-place numpy update.  The value-level `rkFinal`
above abstracts the store; the model below makes it explicit: a heap maps
array references to contents, the callee receives a reference, and each
loop iteration overwrites the referenced cell. -/

/-- Heap update at one array reference. -/
def updRef (h : Nat → List Val) (r : Nat) (v : List Val) : Nat → List Val :=
  fun r2 => if r2 = r then v else h r2

/-- The `dense == False` branch with numpy reference semantics:
`un = u0` aliases, each step does `un += ...` in place; the returned
reference is the caller's own array. -/
def rkFinalRef (a : List (List ℚ)) (b c : List ℚ) (t0 dt : ℚ) (steps : Nat)
    (f : ℚ → List Val → List Val) (heap : Nat → List Val) (u0ref : Nat) :
    (Nat → List Val) × Nat :=
  ((List.range steps).foldl
    (fun h (n : Nat) => updRef h u0ref (rkStep a b c dt f (t0 + n * dt) (h u0ref)))
    heap, u0ref)

/-- `CoarseSolver` at `dense = False` under the reference semantics: it
passes the caller's array straight into `RungeKutta` with `RK2`. -/
def CoarseSolverRef (t0 t1 dt : ℚ) (f : ℚ → List Val → List Val)
    (heap : Nat → List Val) (u0ref : Nat) : (Nat → List Val) × Nat :=
  let abc := tableau .RK2
  rkFinalRef abc.1 abc.2.1 abc.2.2 t0 dt (rkStepCount t0 t1 dt) f heap u0ref

/-! ## Concrete run instances for witnesses and counterexamples -/

/-- C1 counterexample input: `du/dt = 0`, `u0 = 1`, `N = Ng = Nf = 2` on
`[0, 2]`, tolerance `epsilon = 0`, so that NO successive error is ever
below tolerance, yet the scan freezes one slice per iteration. -/
def PrbC1cex : PPrb where
  f := fun _ _ => [Val.fin 0]
  t0 := 0
  t1 := 2
  u0 := [Val.fin 1]
  N := 2
  Ng := 2
  Nf := 2
  eps := 0

/-- C1 witness state for the amended scan property: frontier 0, all
recorded errors 0 (matrices otherwise constant 1), in a 2-slice problem
with tolerance 1. -/
def PrbC1wit : PPrb where
  f := fun _ _ => [Val.fin 0]
  t0 := 0
  t1 := 2
  u0 := [Val.fin 1]
  N := 2
  Ng := 2
  Nf := 2
  eps := 1

/-- A hand-built coordinator state used to witness the scan property. -/
def stC1wit : PRState where
  u := fun _ _ => Val.fin 1
  uG := fun _ _ => Val.fin 1
  uF := fun _ _ => Val.fin 1
  err := fun _ _ => Val.fin 0
  I := 0
  slices := fun _ => 0
  IHist := [0]

/-- C2 counterexample input: the derivative is `+inf` exactly at time
`3/2` (an interior coarse/fine stage time of the second slice) and `0`
elsewhere, so the iteration-1 coarse solve of slice 2 overflows to
`+inf` without producing any NaN in `uG`. -/
def PrbC2cex : PPrb where
  f := fun t _ => if t = 3/2 then [Val.inf] else [Val.fin 0]
  t0 := 0
  t1 := 2
  u0 := [Val.fin 1]
  N := 2
  Ng := 2
  Nf := 2
  eps := 0

/-- C2 witness input: the right-hand side is identically NaN, so the very
first corrected iteration writes NaN into the coarse column. -/
def PrbC2wit : PPrb where
  f := fun _ _ => [Val.nan]
  t0 := 0
  t1 := 1
  u0 := [Val.fin 1]
  N := 1
  Ng := 1
  Nf := 1
  eps := 1/1000000

/-- C4 witness input: `N = 3`, `Ng = 4` (not a multiple), `Nf = 8`. -/
def PrbC4wit : PPrb where
  f := fun _ _ => [Val.fin 0]
  t0 := 0
  t1 := 1
  u0 := [Val.fin 1]
  N := 3
  Ng := 4
  Nf := 8
  eps := 1

/-- C5 counterexample heap: one array `#0` holding `[1.0]`. -/
def heapC5 : Nat → List Val := fun _ => [Val.fin 1]

/-- C5 counterexample right-hand side: constant derivative 1. -/
def fC5 : ℚ → List Val → List Val := fun _ _ => [Val.fin 1]

/-- C6 failing input: identically-NaN right-hand side on one slice, so
iteration 1 diverges and the crash path runs. -/
def PrbC6 : PPrb where
  f := fun _ _ => [Val.nan]
  t0 := 0
  t1 := 1
  u0 := [Val.fin 1]
  N := 1
  Ng := 1
  Nf := 1
  eps := 1/1000000

/-- C8 witness input pieces: `u' = u` by Euler on `[0, 1]`, `dt = 1/2`. -/
def fC8 : ℚ → List Val → List Val := fun _ v => v

/-- C9 witness input: the zero-derivative two-slice run again. -/
def PrbC9wit : PPrb where
  f := fun _ _ => [Val.fin 0]
  t0 := 0
  t1 := 2
  u0 := [Val.fin 1]
  N := 2
  Ng := 2
  Nf := 2
  eps := 0

/-- C10 witness input: the zero-derivative two-slice run. -/
def PrbC10wit : PPrb where
  f := fun _ _ => [Val.fin 0]
  t0 := 0
  t1 := 2
  u0 := [Val.fin 1]
  N := 2
  Ng := 2
  Nf := 2
  eps := 0

/-- The result record that `Parareal` returns on `PrbC10wit`. -/
def resC10wit : PRResult where
  t := [0, 1, 2]
  u := [[Val.fin 1, Val.fin 1], [Val.fin 1, Val.fin 1], [Val.fin 1, Val.fin 1]]
  k := 2
  errs := [[Val.fin 0, Val.fin 0], [Val.fin 0, Val.fin 0], [Val.fin 0, Val.fin 0]]
  slices := [2, 1, 0]
  IHist := [0, 1, 2]

/-! ## Theorems -/

attribute [local semireducible] Rat.add Rat.mul Rat.sub Rat.inv

theorem Val.add_fin (a b : ℚ) : Val.add (.fin a) (.fin b) = .fin (a + b) := rfl

theorem Val.mul_fin (a b : ℚ) : Val.mul (.fin a) (.fin b) = .fin (a * b) := rfl

/-- Helper: the last entry of a `scanl` is the `foldl` of the same
function, for any default. -/
theorem getLastD_scanl {α β : Type} (g : β → α → β) :
    ∀ (l : List α) (b d : β), (l.scanl g b).getLastD d = l.foldl g b
  | [], _, _ => rfl
  | x :: l, b, d => by
    rw [List.scanl_cons, List.singleton_append, List.getLastD_cons, List.foldl_cons]
    exact getLastD_scanl g l (g b x) b

/-- C7: for the scalar linear ODE `u' = λu`, a single step of the `RK1`
(Euler) tableau with step size `dt = d` from state `u = q` returns
exactly `u + dt·λ·u` (here exact: the embedding computes in ℚ). -/
theorem rk1_single_step_linear (lam d t0 q : ℚ) :
    rkFinal (tableau .RK1).1 (tableau .RK1).2.1 (tableau .RK1).2.2 t0 d 1
      [Val.fin q] (fun _ v => smulV lam v) = [Val.fin (q + d * lam * q)] := by
  simp [rkFinal, rkStep, rkStages, sumBK, smulV, addV, tableau, aGet, cGet,
    List.range_succ, Val.add_fin, Val.mul_fin]
  ring

/-- C8: on identical inputs (and a time span / step size that yields at
least one mesh point, the caller contract of the stepper), the
`dense = True` trajectory's final entry equals the `dense = False`
single result. -/
theorem rk_dense_final_state (m : RKMethod) (t0 t1 dt : ℚ) (u0 : List Val)
    (f : ℚ → List Val → List Val) (_h : 1 ≤ numTimeSteps t0 t1 dt) :
    (RungeKutta t0 t1 dt u0 f m true).finalState =
      (RungeKutta t0 t1 dt u0 f m false).finalState := by
  have h1 : (RungeKutta t0 t1 dt u0 f m true).finalState =
      (rkDense (tableau m).1 (tableau m).2.1 (tableau m).2.2 t0 dt
        (rkStepCount t0 t1 dt) u0 f).getLastD [] := rfl
  have h2 : (RungeKutta t0 t1 dt u0 f m false).finalState =
      rkFinal (tableau m).1 (tableau m).2.1 (tableau m).2.2 t0 dt
        (rkStepCount t0 t1 dt) u0 f := rfl
  rw [h1, h2]
  unfold rkDense rkFinal
  exact getLastD_scanl _ _ _ _

/-- C8 witness: Euler on `[0, 1]` with `dt = 1/2` (two steps). -/
theorem rk_dense_final_state_witness :
    1 ≤ numTimeSteps 0 1 (1/2) ∧
      (RungeKutta 0 1 (1/2) [Val.fin 1] fC8 .RK1 true).finalState =
        (RungeKutta 0 1 (1/2) [Val.fin 1] fC8 .RK1 false).finalState :=
  ⟨by decide, rk_dense_final_state .RK1 0 1 (1/2) [Val.fin 1] fC8 (by decide)⟩

/-- C4: if `Ng` is not an integer multiple of `N`, or `Nf` is not an
integer multiple of `Ng`, then `Parareal` reports a fatal input error
(the validation `print`-and-`return None` of lines 264-266, or the
`ZeroDivisionError` raised by `%` itself when `N` or `Ng` is zero)
before the bootstrap sweep — no propagator is ever called and no state
is computed. -/
theorem parareal_invalid_steps (P : PPrb) (par : Bool)
    (h : ¬ (P.N ∣ P.Ng) ∨ ¬ (P.Ng ∣ P.Nf)) :
    (Parareal P par).isFatalInputError = true := by
  unfold Parareal
  split
  · rfl
  · split
    · rfl
    · split
      · rfl
      · split
        · rfl
        · rename_i h1 h2 h3 h4
          exfalso
          rcases h with h5 | h5
          · exact h5 (Nat.dvd_of_mod_eq_zero (not_not.mp h2))
          · exact h5 (Nat.dvd_of_mod_eq_zero (not_not.mp h4))

/-- C4 witness: `N = 3`, `Ng = 4` is rejected. -/
theorem parareal_invalid_steps_witness :
    (¬ (PrbC4wit.N ∣ PrbC4wit.Ng) ∨ ¬ (PrbC4wit.Ng ∣ PrbC4wit.Nf)) ∧
      (Parareal PrbC4wit false).isFatalInputError = true :=
  ⟨Or.inl (by decide), parareal_invalid_steps PrbC4wit false (Or.inl (by decide))⟩

/-- C6 (code bug): on a diverging run the source prints the crash
message, sets `k = np.nan` (line 406), and then builds the diagnostics
dictionary by slicing `err[:, :k]`, `timesF[:, 0:k+1]` and
`slices[0:k+1]` with a float-NaN bound (lines 418-422) — numpy raises
`TypeError`, so the run raises instead of returning its diagnostics.
This evaluates the embedding on a concrete diverging input. -/
theorem parareal_crash_raises : Parareal PrbC6 false = PyOutcome.typeError := by decide

theorem updRef_same (h : Nat → List Val) (r : Nat) (v : List Val) :
    updRef h r v r = v := by simp [updRef]

theorem updRef_updRef (h : Nat → List Val) (r : Nat) (v w : List Val) :
    updRef (updRef h r v) r w = updRef h r w := by
  funext r2
  by_cases hr : r2 = r <;> simp [updRef, hr]

theorem updRef_id (h : Nat → List Val) (r : Nat) :
    updRef h r (h r) = h := by
  funext r2
  by_cases hr : r2 = r <;> simp [updRef, hr]

/-- C5 counterexample: one `CoarseSolver` call at `dense = False` (on the
constant-derivative problem `u' = 1`, one step of size 1 from `u0 = [1]`)
leaves the caller's array holding `[2]`, not the `[1]` it held before the
call: the propagator aliases and mutates caller-owned state. -/
theorem coarse_solver_mutates_caller :
    (CoarseSolverRef 0 1 1 fC5 heapC5 0).1 0 ≠ heapC5 0 := by decide

/-- C5 amended: under the reference semantics of `un = u0; un += ...`,
the `dense = False` stepper returns the caller's own array reference and
leaves the heap with that one array overwritten by the final state
(`rkFinal` of its previous contents); every other array is untouched. -/
theorem rkFinalRef_spec (a : List (List ℚ)) (b c : List ℚ) (t0 dt : ℚ) (steps : Nat)
    (f : ℚ → List Val → List Val) (heap : Nat → List Val) (r : Nat) :
    (rkFinalRef a b c t0 dt steps f heap r).1 =
      updRef heap r (rkFinal a b c t0 dt steps (heap r) f) ∧
    (rkFinalRef a b c t0 dt steps f heap r).2 = r := by
  constructor
  · induction steps with
    | zero =>
      simp only [rkFinalRef, rkFinal, List.range_zero, List.foldl_nil]
      exact (updRef_id heap r).symm
    | succ m ih =>
      simp only [rkFinalRef, rkFinal, List.range_succ, List.foldl_append,
        List.foldl_cons, List.foldl_nil] at ih ⊢
      rw [ih, updRef_same, updRef_updRef]
  · rfl

/-- C1 counterexample: on `PrbC1cex` (tolerance `epsilon = 0`) the
frontier history is `[0, 1, 2]` — slice 0 is frozen at iteration 1 and
slice 1 at iteration 2 — although NO boundary's recorded iteration-1
error is below the tolerance (`x < 0` is false for every error value).
The scan's `p == II` arm freezes the frontier slice without any
tolerance test, so a slice can be counted in `I` without ever having
satisfied the tolerance test, refuting the claim as stated. -/
theorem convergence_scan_freezes_untested :
    (pararealCoreRun PrbC1cex false).2.2.IHist = [0, 1, 2] ∧
      ((List.range 3).all (fun r =>
        !(Val.blt ((pararealCoreRun PrbC1cex false).2.2.err r 0)
          (Val.fin PrbC1cex.eps)))) = true :=
  ⟨by decide, by decide⟩

/-- C2 counterexample: on `PrbC2cex` the iteration-1 coarse solve of the
second slice returns `+inf` (stored at `uG[2, 1]`, the `k = 1` column for
`n = 1`), a non-finite value; yet the run does not abort there: the NaN
check sees no NaN, `crashed = false`, and a second outer iteration runs
(the loop exits at `k = 2`).  `np.isnan` does not detect infinities, so a
non-finite (infinite) coarse result does not trigger the divergence
abort. -/
theorem infinite_coarse_result_not_aborted :
    (pararealCoreRun PrbC2cex false).2.2.uG 2 1 = Val.inf ∧
      (pararealCoreRun PrbC2cex false).2.1 = false ∧
      (pararealCoreRun PrbC2cex false).1 = 2 :=
  ⟨by decide, by decide, by decide⟩

/-- C2 amended: when the divergence check does fire — a NaN (and only a
NaN) among the iteration-`k` coarse results, after that iteration's
coarse/correction pass — the outer loop stops at once: whatever
iterations remain (`rest`) are not executed, the loop reports iteration
`k` with `crashed = true`, and the state is exactly the post-correction
state of iteration `k` (no later convergence bookkeeping). -/
theorem nan_coarse_result_aborts_immediately (P : PPrb) (par : Bool)
    (k kl : Nat) (rest : List Nat) (st : PRState)
    (h : uGColHasNaN P k (corrStage P k (if par then finePar P k st else fineSeq P k st)) = true) :
    pararealFor P par (k :: rest) kl st =
      (k, true, corrStage P k (if par then finePar P k st else fineSeq P k st)) := by
  simp only [pararealFor, iterBody, h, if_true]

/-- C2 amended witness: the identically-NaN run `PrbC2wit` crashes at
iteration 1 and skips the (artificial) remaining iteration list `[2]`. -/
theorem nan_coarse_result_aborts_immediately_witness :
    uGColHasNaN PrbC2wit 1 (corrStage PrbC2wit 1
      (if false then finePar PrbC2wit 1 (bootstrap PrbC2wit)
       else fineSeq PrbC2wit 1 (bootstrap PrbC2wit))) = true ∧
    pararealFor PrbC2wit false (1 :: [2]) 0 (bootstrap PrbC2wit) =
      (1, true, corrStage PrbC2wit 1
        (if false then finePar PrbC2wit 1 (bootstrap PrbC2wit)
         else fineSeq PrbC2wit 1 (bootstrap PrbC2wit))) :=
  ⟨by decide, nan_coarse_result_aborts_immediately PrbC2wit false 1 0 [2]
    (bootstrap PrbC2wit) (by decide)⟩

theorem freezeSlice_I (P : PPrb) (k p : Nat) (st : PRState) :
    (freezeSlice P k p st).I = st.I + 1 := rfl

theorem freezeSlice_err (P : PPrb) (k p : Nat) (st : PRState) :
    (freezeSlice P k p st).err = st.err := rfl

theorem freezeSlice_IHist (P : PPrb) (k p : Nat) (st : PRState) :
    (freezeSlice P k p st).IHist = st.IHist := rfl

/-- Helper: behaviour of the scan on indices strictly beyond the
frontier (the `p > II` arms): it freezes exactly the maximal prefix of
slices whose recorded error is below tolerance, stopping at the first
failure. -/
theorem convScan_tail_spec (P : PPrb) (k II : Nat) :
    ∀ (m p : Nat) (st : PRState), II < p → st.I = p →
      p ≤ (convScan P k II (List.range' p m) st).I ∧
      (convScan P k II (List.range' p m) st).I ≤ p + m ∧
      (convScan P k II (List.range' p m) st).err = st.err ∧
      (∀ q, p ≤ q → q < (convScan P k II (List.range' p m) st).I →
        Val.blt (st.err q (k-1)) (Val.fin P.eps) = true) ∧
      ((convScan P k II (List.range' p m) st).I < p + m →
        Val.blt (st.err ((convScan P k II (List.range' p m) st).I) (k-1))
          (Val.fin P.eps) = false) := by
  intro m
  induction m with
  | zero =>
    intro p st hII hI
    rw [List.range'_zero]
    have h0 : convScan P k II [] st = st := rfl
    rw [h0]
    refine ⟨hI.ge, by omega, rfl, ?_, ?_⟩
    · intro q hq1 hq2
      exact absurd hq2 (by omega)
    · intro hlt
      exact absurd hlt (by omega)
  | succ m ih =>
    intro p st hII hI
    rw [List.range'_succ]
    have hne : p ≠ II := by omega
    by_cases hb : Val.blt (st.err p (k-1)) (Val.fin P.eps) = true
    · have hstep : convScan P k II (p :: List.range' (p+1) m) st =
          convScan P k II (List.range' (p+1) m) (freezeSlice P k p st) := by
        simp only [convScan, if_neg hne, hb, if_true]
      rw [hstep]
      have hI1 : (freezeSlice P k p st).I = p + 1 := by rw [freezeSlice_I, hI]
      obtain ⟨h1, h2, h3, h4, h5⟩ := ih (p+1) (freezeSlice P k p st) (by omega) hI1
      rw [freezeSlice_err] at h3 h4 h5
      refine ⟨by omega, by omega, h3, ?_, ?_⟩
      · intro q hq1 hq2
        rcases Nat.eq_or_lt_of_le hq1 with hq | hq
        · exact hq ▸ hb
        · exact h4 q hq hq2
      · intro hlt
        exact h5 (by omega)
    · have hstep : convScan P k II (p :: List.range' (p+1) m) st = st := by
        simp only [convScan, if_neg hne, if_neg hb, Bool.false_eq_true, if_false]
      rw [hstep]
      refine ⟨hI.ge, by omega, rfl, ?_, ?_⟩
      · intro q hq1 hq2; omega
      · intro hlt
        rw [hI]
        exact Bool.eq_false_iff.mpr hb

/-- Helper: full behaviour of one convergence scan launched from a
frontier `II = st.I < N` (as the coordinator launches it): the frontier
slice freezes unconditionally, then exactly the maximal below-tolerance
prefix freezes, and the scan stops at the first failing slice. -/
theorem convScan_spec (P : PPrb) (k : Nat) (st : PRState) (h : st.I < P.N) :
    st.I < (convScan P k st.I (List.range' st.I (P.N - st.I)) st).I ∧
    (convScan P k st.I (List.range' st.I (P.N - st.I)) st).I ≤ P.N ∧
    (convScan P k st.I (List.range' st.I (P.N - st.I)) st).err = st.err ∧
    (∀ q, st.I < q → q < (convScan P k st.I (List.range' st.I (P.N - st.I)) st).I →
      Val.blt (st.err q (k-1)) (Val.fin P.eps) = true) ∧
    ((convScan P k st.I (List.range' st.I (P.N - st.I)) st).I < P.N →
      Val.blt (st.err ((convScan P k st.I (List.range' st.I (P.N - st.I)) st).I) (k-1))
        (Val.fin P.eps) = false) := by
  have hm : P.N - st.I = (P.N - st.I - 1) + 1 := by omega
  rw [hm, List.range'_succ]
  have hstep : convScan P k st.I (st.I :: List.range' (st.I + 1) (P.N - st.I - 1)) st =
      convScan P k st.I (List.range' (st.I + 1) (P.N - st.I - 1)) (freezeSlice P k st.I st) := by
    simp only [convScan, eq_self_iff_true, if_true]
  rw [hstep]
  have hI1 : (freezeSlice P k st.I st).I = st.I + 1 := freezeSlice_I P k st.I st
  obtain ⟨h1, h2, h3, h4, h5⟩ :=
    convScan_tail_spec P k st.I (P.N - st.I - 1) (st.I + 1) (freezeSlice P k st.I st)
      (by omega) hI1
  rw [freezeSlice_err] at h3 h4 h5
  refine ⟨by omega, by omega, h3, ?_, ?_⟩
  · intro q hq1 hq2
    exact h4 q (by omega) hq2
  · intro hlt
    exact h5 (by omega)

/-- C1 amended: in every convergence test launched from frontier
`I < N`, the slice at the frontier is frozen unconditionally (no
tolerance test — the algorithm treats it as already converged), and then
slices are frozen as a contiguous prefix exactly while their recorded
error `err[p, k-1]` is below tolerance, the scan stopping at the first
subsequent slice whose error is not below tolerance; the frontier thus
advances by at least one and never beyond `N`, and every frozen slice
OTHER than the first one did satisfy the tolerance test. -/
theorem convergence_scan_freeze_rule (P : PPrb) (k : Nat) (st : PRState)
    (h : st.I < P.N) :
    st.I < (convScan P k st.I (List.range' st.I (P.N - st.I)) st).I ∧
    (convScan P k st.I (List.range' st.I (P.N - st.I)) st).I ≤ P.N ∧
    (∀ q, st.I < q → q < (convScan P k st.I (List.range' st.I (P.N - st.I)) st).I →
      Val.blt (st.err q (k-1)) (Val.fin P.eps) = true) ∧
    ((convScan P k st.I (List.range' st.I (P.N - st.I)) st).I < P.N →
      Val.blt (st.err ((convScan P k st.I (List.range' st.I (P.N - st.I)) st).I) (k-1))
        (Val.fin P.eps) = false) := by
  obtain ⟨h1, h2, _, h4, h5⟩ := convScan_spec P k st h
  exact ⟨h1, h2, h4, h5⟩

/-- C1 amended witness: a concrete scan (frontier 0, two slices, all
errors 0, tolerance 1) advances the frontier. -/
theorem convergence_scan_freeze_rule_witness :
    stC1wit.I < PrbC1wit.N ∧
      stC1wit.I < (convScan PrbC1wit 1 stC1wit.I
        (List.range' stC1wit.I (PrbC1wit.N - stC1wit.I)) stC1wit).I :=
  ⟨by decide, (convergence_scan_freeze_rule PrbC1wit 1 stC1wit (by decide)).1⟩

/-- Helper: a `foldl` whose step preserves a projection preserves it. -/
theorem foldl_proj_const {α β : Type} (proj : PRState → β) (g : PRState → α → PRState)
    (hg : ∀ s a, proj (g s a) = proj s) :
    ∀ (l : List α) (st : PRState), proj (l.foldl g st) = proj st
  | [], _ => rfl
  | a :: l, st => by
    rw [List.foldl_cons, foldl_proj_const proj g hg l (g st a), hg]

theorem fineSeq_I (P : PPrb) (k : Nat) (st : PRState) : (fineSeq P k st).I = st.I := by
  unfold fineSeq
  apply foldl_proj_const (fun s => s.I)
  intro s a
  rfl

theorem fineSeq_IHist (P : PPrb) (k : Nat) (st : PRState) :
    (fineSeq P k st).IHist = st.IHist := by
  unfold fineSeq
  apply foldl_proj_const (fun s => s.IHist)
  intro s a
  rfl

theorem finePar_I (P : PPrb) (k : Nat) (st : PRState) : (finePar P k st).I = st.I := rfl

theorem finePar_IHist (P : PPrb) (k : Nat) (st : PRState) :
    (finePar P k st).IHist = st.IHist := rfl

theorem corrStage_I (P : PPrb) (k : Nat) (st : PRState) : (corrStage P k st).I = st.I := by
  unfold corrStage
  apply foldl_proj_const (fun s => s.I)
  intro s a
  rfl

theorem corrStage_IHist (P : PPrb) (k : Nat) (st : PRState) :
    (corrStage P k st).IHist = st.IHist := by
  unfold corrStage
  apply foldl_proj_const (fun s => s.IHist)
  intro s a
  rfl

theorem errUpdate_I (P : PPrb) (k : Nat) (st : PRState) : (errUpdate P k st).I = st.I := rfl

theorem errUpdate_IHist (P : PPrb) (k : Nat) (st : PRState) :
    (errUpdate P k st).IHist = st.IHist := rfl

theorem bootstrap_I (P : PPrb) : (bootstrap P).I = 0 := by
  unfold bootstrap
  apply foldl_proj_const (fun s => s.I)
  intro s a
  rfl

theorem bootstrap_IHist (P : PPrb) : (bootstrap P).IHist = [0] := by
  unfold bootstrap
  apply foldl_proj_const (fun s => s.IHist)
  intro s a
  rfl

/-- Helper: the scan preserves any projection untouched by freezing. -/
theorem convScan_proj {β : Type} (P : PPrb) (k II : Nat) (proj : PRState → β)
    (hfr : ∀ p s, proj (freezeSlice P k p s) = proj s) :
    ∀ (ps : List Nat) (st : PRState), proj (convScan P k II ps st) = proj st
  | [], _ => rfl
  | p :: rest, st => by
    by_cases h1 : p = II
    · rw [show convScan P k II (p :: rest) st =
          convScan P k II rest (freezeSlice P k p st) from by
            simp only [convScan, if_pos h1],
        convScan_proj P k II proj hfr rest, hfr]
    · by_cases h2 : Val.blt (st.err p (k-1)) (Val.fin P.eps) = true
      · rw [show convScan P k II (p :: rest) st =
            convScan P k II rest (freezeSlice P k p st) from by
              simp only [convScan, if_neg h1, if_pos h2],
          convScan_proj P k II proj hfr rest, hfr]
      · rw [show convScan P k II (p :: rest) st = st from by
          simp only [convScan, if_neg h1, if_neg h2, Bool.false_eq_true, if_false]]

/-- Helper: the scan, as launched by the coordinator, never decreases
the frontier and never pushes it past `N`. -/
theorem convScan_I_mono_bound (P : PPrb) (k : Nat) (st : PRState) :
    st.I ≤ (convScan P k st.I (List.range' st.I (P.N - st.I)) st).I ∧
    (st.I ≤ P.N → (convScan P k st.I (List.range' st.I (P.N - st.I)) st).I ≤ P.N) := by
  by_cases h : st.I < P.N
  · obtain ⟨h1, h2, _, _, _⟩ := convScan_spec P k st h
    exact ⟨h1.le, fun _ => h2⟩
  · have hz : P.N - st.I = 0 := by omega
    rw [hz, List.range'_zero]
    have h0 : convScan P k st.I [] st = st := rfl
    rw [h0]
    exact ⟨le_refl _, fun hle => hle⟩

/-- Helper: one outer-iteration body never decreases the frontier, keeps
it bounded by `N`, and extends the ghost history by exactly its final
frontier (crash iterations change neither). -/
theorem iterBody_facts (P : PPrb) (par : Bool) (k : Nat) (st : PRState) :
    st.I ≤ (iterBody P par k st).1.I ∧
    (st.I ≤ P.N → (iterBody P par k st).1.I ≤ P.N) ∧
    ((iterBody P par k st).2 = true → (iterBody P par k st).1.IHist = st.IHist) ∧
    ((iterBody P par k st).2 = false →
      (iterBody P par k st).1.IHist = st.IHist ++ [(iterBody P par k st).1.I]) := by
  have e1I : (if par then finePar P k st else fineSeq P k st).I = st.I := by
    cases par
    · simp only [if_false, Bool.false_eq_true, fineSeq_I]
    · simp only [if_true, finePar_I]
  have e1H : (if par then finePar P k st else fineSeq P k st).IHist = st.IHist := by
    cases par
    · simp only [if_false, Bool.false_eq_true, fineSeq_IHist]
    · simp only [if_true, finePar_IHist]
  have e2I : (corrStage P k (if par then finePar P k st else fineSeq P k st)).I = st.I := by
    rw [corrStage_I, e1I]
  have e2H : (corrStage P k (if par then finePar P k st else fineSeq P k st)).IHist = st.IHist := by
    rw [corrStage_IHist, e1H]
  unfold iterBody
  by_cases hnan : uGColHasNaN P k (corrStage P k (if par then finePar P k st else fineSeq P k st)) = true
  · simp only [hnan, if_true]
    refine ⟨e2I.ge, fun hle => by omega, fun _ => e2H, fun hfalse => by simp at hfalse⟩
  · simp only [hnan, Bool.false_eq_true, if_false]
    have e3I : (errUpdate P k (corrStage P k (if par then finePar P k st else fineSeq P k st))).I
        = st.I := by rw [errUpdate_I, e2I]
    have e3H : (errUpdate P k (corrStage P k (if par then finePar P k st else fineSeq P k st))).IHist
        = st.IHist := by rw [errUpdate_IHist, e2H]
    obtain ⟨hm, hb⟩ := convScan_I_mono_bound P k
      (errUpdate P k (corrStage P k (if par then finePar P k st else fineSeq P k st)))
    have hsH := convScan_proj P k
      (errUpdate P k (corrStage P k (if par then finePar P k st else fineSeq P k st))).I
      (fun s => s.IHist) (fun p s => rfl)
      (List.range' (errUpdate P k (corrStage P k (if par then finePar P k st else fineSeq P k st))).I
        (P.N - (errUpdate P k (corrStage P k (if par then finePar P k st else fineSeq P k st))).I))
      (errUpdate P k (corrStage P k (if par then finePar P k st else fineSeq P k st)))
    refine ⟨?_, ?_, ?_, ?_⟩
    · exact le_trans e3I.ge hm
    · intro hle
      exact hb (e3I.le.trans hle)
    · intro htrue
      simp at htrue
    · intro _
      rw [hsH, e3H]

/-- Helper: the outer loop preserves the frontier-history invariant. -/
theorem pararealFor_IHist_inv (P : PPrb) (par : Bool) :
    ∀ (ks : List Nat) (kl : Nat) (st : PRState),
      List.Chain' (· ≤ ·) st.IHist → (∀ x ∈ st.IHist, x ≤ P.N) →
      st.IHist.getLast? = some st.I → st.I ≤ P.N →
      List.Chain' (· ≤ ·) (pararealFor P par ks kl st).2.2.IHist ∧
        ∀ x ∈ (pararealFor P par ks kl st).2.2.IHist, x ≤ P.N
  | [], kl, st => fun hc ha _ _ => ⟨hc, ha⟩
  | k :: rest, kl, st => by
    intro hc ha hlast hIN
    obtain ⟨hmono, hbound, hcrash, hok⟩ := iterBody_facts P par k st
    show List.Chain' (· ≤ ·) (pararealFor P par (k :: rest) kl st).2.2.IHist ∧ _
    by_cases hc2 : (iterBody P par k st).2 = true
    · have hstep : pararealFor P par (k :: rest) kl st = (k, true, (iterBody P par k st).1) := by
        simp only [pararealFor, hc2, if_true]
      rw [hstep]
      rw [hcrash hc2] at *
      exact ⟨hc, ha⟩
    · have hc2f : (iterBody P par k st).2 = false := Bool.eq_false_iff.mpr hc2
      have hH : (iterBody P par k st).1.IHist = st.IHist ++ [(iterBody P par k st).1.I] :=
        hok hc2f
      have hchain : List.Chain' (· ≤ ·) (iterBody P par k st).1.IHist := by
        rw [hH, List.chain'_append]
        refine ⟨hc, List.chain'_singleton _, ?_⟩
        intro x hx y hy
        rw [hlast] at hx
        simp only [Option.mem_def, Option.some.injEq] at hx
        simp only [List.head?_cons, Option.mem_def, Option.some.injEq] at hy
        rw [← hx, ← hy] at *
        exact hmono
      have hall : ∀ x ∈ (iterBody P par k st).1.IHist, x ≤ P.N := by
        rw [hH]
        intro x hx
        rcases List.mem_append.mp hx with hx1 | hx1
        · exact ha x hx1
        · rw [List.mem_singleton.mp hx1]
          exact hbound hIN
      have hlast2 : (iterBody P par k st).1.IHist.getLast? = some (iterBody P par k st).1.I := by
        rw [hH, List.getLast?_concat]
      by_cases hdone : (iterBody P par k st).1.I = P.N
      · have hstep : pararealFor P par (k :: rest) kl st = (k, false, (iterBody P par k st).1) := by
          simp only [pararealFor, hc2f, Bool.false_eq_true, if_false, hdone, if_pos rfl, if_true]
        rw [hstep]
        exact ⟨hchain, hall⟩
      · have hstep : pararealFor P par (k :: rest) kl st =
            pararealFor P par rest k (iterBody P par k st).1 := by
          simp only [pararealFor, hc2f, Bool.false_eq_true, if_false, hdone, if_false]
        rw [hstep]
        exact pararealFor_IHist_inv P par rest k (iterBody P par k st).1
          hchain hall hlast2 (hbound hIN)

/-- C9: across the outer iterations of any `Parareal` run (recorded in
the ghost history `IHist`: the frontier after initialization and after
each executed iteration), the convergence frontier `I` is monotonically
non-decreasing and never exceeds `N`. -/
theorem frontier_monotone_bounded (P : PPrb) (par : Bool) :
    List.Chain' (· ≤ ·) (pararealCoreRun P par).2.2.IHist ∧
      ∀ x ∈ (pararealCoreRun P par).2.2.IHist, x ≤ P.N := by
  unfold pararealCoreRun
  refine pararealFor_IHist_inv P par (List.range' 1 P.N) 0 (bootstrap P) ?_ ?_ ?_ ?_
  · rw [bootstrap_IHist]
    exact List.chain'_singleton 0
  · rw [bootstrap_IHist]
    intro x hx
    rw [List.mem_singleton.mp hx]
    exact Nat.zero_le _
  · rw [bootstrap_IHist, bootstrap_I]
    rfl
  · rw [bootstrap_I]
    exact Nat.zero_le _

/-- C9 witness: a concrete run whose history contains the frontier value
1, which the theorem bounds by `N`. -/
theorem frontier_monotone_bounded_witness :
    List.Chain' (· ≤ ·) (pararealCoreRun PrbC9wit false).2.2.IHist ∧ (1 : Nat) ≤ PrbC9wit.N :=
  ⟨(frontier_monotone_bounded PrbC9wit false).1,
   (frontier_monotone_bounded PrbC9wit false).2 1 (by decide)⟩

theorem rowSeg_length (M : Mat) (i lo len : Nat) : (rowSeg M i lo len).length = len := by
  simp [rowSeg]

theorem rkStep_length (a : List (List ℚ)) (b c : List ℚ) (dt : ℚ)
    (f : ℚ → List Val → List Val) (tn : ℚ) (un : List Val) :
    (rkStep a b c dt f tn un).length = un.length := by
  simp [rkStep, addV, sumBK, List.length_zipWith]

theorem rkFinal_length (a : List (List ℚ)) (b c : List ℚ) (t0 dt : ℚ) (steps : Nat)
    (u0 : List Val) (f : ℚ → List Val → List Val) :
    (rkFinal a b c t0 dt steps u0 f).length = u0.length := by
  unfold rkFinal
  generalize List.range steps = l
  induction l generalizing u0 with
  | nil => rfl
  | cons x l ih =>
    rw [List.foldl_cons, ih, rkStep_length]

theorem fineSeq_u (P : PPrb) (k : Nat) (st : PRState) : (fineSeq P k st).u = st.u := by
  unfold fineSeq
  apply foldl_proj_const (fun s => s.u)
  intro s a
  rfl

theorem fineSeq_uG (P : PPrb) (k : Nat) (st : PRState) : (fineSeq P k st).uG = st.uG := by
  unfold fineSeq
  apply foldl_proj_const (fun s => s.uG)
  intro s a
  rfl

theorem fineSeq_err (P : PPrb) (k : Nat) (st : PRState) : (fineSeq P k st).err = st.err := by
  unfold fineSeq
  apply foldl_proj_const (fun s => s.err)
  intro s a
  rfl

theorem fineSeq_slices (P : PPrb) (k : Nat) (st : PRState) :
    (fineSeq P k st).slices = st.slices := by
  unfold fineSeq
  apply foldl_proj_const (fun s => s.slices)
  intro s a
  rfl

/-- Helper: the `uF` matrix produced by a sequential fold of width-`n`
segment writes at rows `i+1`, `i` ranging over `range' i0 m`. -/
theorem foldWrite_uF (lo n : Nat) (fs : Mat → Nat → List Val)
    (hlen : ∀ u i, (fs u i).length = n) :
    ∀ (m i0 : Nat) (s : PRState) (r c : Nat),
      ((List.range' i0 m).foldl
        (fun s2 i => { s2 with uF := writeSeg s2.uF (i+1) lo (fs s2.u i) }) s).uF r c =
      if i0 + 1 ≤ r ∧ r ≤ i0 + m ∧ lo ≤ c ∧ c < lo + n then
        (fs s.u (r-1)).getD (c - lo) Val.nan
      else s.uF r c := by
  intro m
  induction m with
  | zero =>
    intro i0 s r c
    rw [List.range'_zero, List.foldl_nil, if_neg (by omega)]
  | succ m ih =>
    intro i0 s r c
    rw [List.range'_succ, List.foldl_cons]
    rw [ih (i0+1) _ r c]
    have hu : ({ s with uF := writeSeg s.uF (i0+1) lo (fs s.u i0) } : PRState).u = s.u := rfl
    rw [hu]
    have huF : ({ s with uF := writeSeg s.uF (i0+1) lo (fs s.u i0) } : PRState).uF =
        writeSeg s.uF (i0+1) lo (fs s.u i0) := rfl
    rw [huF]
    by_cases hr : i0 + 1 ≤ r ∧ r ≤ i0 + (m + 1) ∧ lo ≤ c ∧ c < lo + n
    · rw [if_pos hr]
      by_cases hr2 : i0 + 2 ≤ r
      · rw [if_pos ⟨by omega, by omega, hr.2.2.1, hr.2.2.2⟩]
      · have hre : r = i0 + 1 := by omega
        rw [if_neg (by omega)]
        unfold writeSeg
        rw [hlen]
        rw [if_pos ⟨hre, hr.2.2.1, hr.2.2.2⟩]
        rw [hre]
        simp only [Nat.add_sub_cancel]
    · rw [if_neg hr]
      rw [if_neg (by omega)]
      unfold writeSeg
      rw [hlen]
      rw [if_neg (by omega)]

/-- Helper: `getD` of a map over `range'`. -/
theorem getD_map_range' {β : Type} (g : Nat → β) (d : β) (s m j : Nat) :
    ((List.range' s m).map g).getD j d = if j < m then g (s + j) else d := by
  rw [List.getD_eq_getElem?_getD, List.getElem?_map]
  by_cases hj : j < m
  · rw [List.getElem?_range' s 1 hj, if_pos hj]
    simp
  · rw [if_neg hj, List.getElem?_eq_none
      (by simpa [List.length_range'] using Nat.le_of_not_lt hj)]
    rfl

/-- Helper: the sequential and pooled fine stages write the same `uF`
matrix (the same `FineSolver` results into the same disjoint row
segments, read from the same unmodified `u`), so they produce identical
states. -/
theorem fineSeq_eq_finePar (P : PPrb) (k : Nat) (st : PRState) :
    fineSeq P k st = finePar P k st := by
  have hlen : ∀ (u : Mat) (i : Nat),
      ((FineSolver (P.tmesh i) (P.tmesh (i+1)) P.dt
        (rowSeg u i (P.n * (k-1)) P.n) P.f false).getSingle).length = P.n := by
    intro u i
    have he : (FineSolver (P.tmesh i) (P.tmesh (i+1)) P.dt
        (rowSeg u i (P.n * (k-1)) P.n) P.f false).getSingle =
        rkFinal (tableau .RK4).1 (tableau .RK4).2.1 (tableau .RK4).2.2
          (P.tmesh i) P.dt (rkStepCount (P.tmesh i) (P.tmesh (i+1)) P.dt)
          (rowSeg u i (P.n * (k-1)) P.n) P.f := rfl
    rw [he, rkFinal_length, rowSeg_length]
  apply PRState.ext
  · rw [fineSeq_u]
    rfl
  · rw [fineSeq_uG]
    rfl
  · funext r c
    have h2 : (fineSeq P k st).uF r c =
        if st.I + 1 ≤ r ∧ r ≤ st.I + (P.N - st.I) ∧
            P.n * (k-1) ≤ c ∧ c < P.n * (k-1) + P.n then
          ((FineSolver (P.tmesh (r-1)) (P.tmesh ((r-1)+1)) P.dt
            (rowSeg st.u (r-1) (P.n * (k-1)) P.n) P.f false).getSingle).getD
            (c - P.n * (k-1)) Val.nan
        else st.uF r c :=
      foldWrite_uF (P.n * (k-1)) P.n
        (fun u i => (FineSolver (P.tmesh i) (P.tmesh (i+1)) P.dt
          (rowSeg u i (P.n * (k-1)) P.n) P.f false).getSingle) hlen
        (P.N - st.I) st.I st r c
    have h3 : (finePar P k st).uF r c =
        if st.I + 1 ≤ r ∧ r ≤ P.N ∧ P.n * (k-1) ≤ c ∧ c < P.n * (k-1) + P.n then
          (((List.range' st.I (P.N - st.I)).map
            (fun i => (FineSolver (P.tmesh i) (P.tmesh (i+1)) P.dt
              (rowSeg st.u i (P.n * (k-1)) P.n) P.f false).getSingle)).getD
                (r - (st.I + 1)) []).getD (c - P.n * (k-1)) Val.nan
        else st.uF r c := rfl
    rw [h2, h3, getD_map_range']
    by_cases hr : st.I + 1 ≤ r ∧ r ≤ P.N ∧ P.n * (k-1) ≤ c ∧ c < P.n * (k-1) + P.n
    · rw [if_pos hr, if_pos (show st.I + 1 ≤ r ∧ r ≤ st.I + (P.N - st.I) ∧
          P.n * (k-1) ≤ c ∧ c < P.n * (k-1) + P.n from ⟨hr.1, by omega, hr.2.2.1, hr.2.2.2⟩),
        if_pos (show r - (st.I + 1) < P.N - st.I by omega)]
      have hidx : st.I + (r - (st.I + 1)) = r - 1 := by omega
      rw [hidx]
    · rw [if_neg hr, if_neg (show ¬ (st.I + 1 ≤ r ∧ r ≤ st.I + (P.N - st.I) ∧
        P.n * (k-1) ≤ c ∧ c < P.n * (k-1) + P.n) by omega)]
  · rw [fineSeq_err]
    rfl
  · rw [fineSeq_I]
    rfl
  · rw [fineSeq_slices]
    rfl
  · rw [fineSeq_IHist]
    rfl

/-- Helper: one iteration body is invariant to the `parallel` flag. -/
theorem iterBody_par_invariant (P : PPrb) (k : Nat) (st : PRState) :
    iterBody P true k st = iterBody P false k st := by
  unfold iterBody
  simp only [if_true, Bool.false_eq_true, if_false]
  rw [fineSeq_eq_finePar]

/-- Helper: the whole outer loop is invariant to the `parallel` flag. -/
theorem pararealFor_par_invariant (P : PPrb) :
    ∀ (ks : List Nat) (kl : Nat) (st : PRState),
      pararealFor P true ks kl st = pararealFor P false ks kl st
  | [], _, _ => rfl
  | k :: rest, kl, st => by
    simp only [pararealFor, iterBody_par_invariant P k st,
      pararealFor_par_invariant P rest]

/-- C3: for the same problem, `Parareal` with `parallel = True` and
`parallel = False` returns identical outcomes — the same time mesh, the
same corrected-solution matrix, the same iteration count, errors and
slice counts (the wall-clock timing arrays, which may differ, are the
only part of the source output not modelled). -/
theorem parareal_parallel_invariant (P : PPrb) : Parareal P true = Parareal P false := by
  unfold Parareal pararealCoreRun
  rw [pararealFor_par_invariant]

/-- C10: a successful `Parareal` run returning after `k` iterations on
an `n`-dimensional system with `N` slices hands back the solution matrix
`u[:, n:n*(k+1)]` (line 402): `N + 1` rows, exactly `n·k` columns, whose
entry `(i, j)` is the stored corrected value `u[i, n + j]` — the
corrected iterates of iterations `1..k`, the `k = 0` bootstrap block
(columns `0..n-1`) omitted. -/
theorem parareal_output_shape (P : PPrb) (par : Bool) (res : PRResult)
    (h : Parareal P par = .ok res) :
    res.u.length = P.N + 1 ∧
    (∀ row ∈ res.u, row.length = P.n * res.k) ∧
    res.k = (pararealCoreRun P par).1 ∧
    (∀ i j, i < P.N + 1 → j < P.n * res.k →
      (res.u.getD i []).getD j Val.nan = (pararealCoreRun P par).2.2.u i (P.n + j)) := by
  unfold Parareal at h
  split at h
  · exact absurd h (by simp)
  · split at h
    · exact absurd h (by simp)
    · split at h
      · exact absurd h (by simp)
      · split at h
        · exact absurd h (by simp)
        · have h' : (if (pararealCoreRun P par).2.1 = true then PyOutcome.typeError
              else PyOutcome.ok (PRResult.mk
                ((List.range (P.N + 1)).map (fun i => P.tmesh i))
                ((List.range (P.N + 1)).map (fun i =>
                  (List.range (P.n * (pararealCoreRun P par).1)).map
                    (fun j => (pararealCoreRun P par).2.2.u i (P.n + j))))
                ((pararealCoreRun P par).1)
                ((List.range (P.N + 1)).map (fun r2 =>
                  (List.range (pararealCoreRun P par).1).map
                    (fun c => (pararealCoreRun P par).2.2.err r2 c)))
                ((List.range ((pararealCoreRun P par).1 + 1)).map
                  (fun j => (pararealCoreRun P par).2.2.slices j))
                ((pararealCoreRun P par).2.2.IHist))) = PyOutcome.ok res := h
          by_cases hcr : (pararealCoreRun P par).2.1 = true
          · rw [if_pos hcr] at h'
            exact absurd h' (by simp)
          · rw [if_neg hcr] at h'
            injection h' with h2
            rw [← h2]
            refine ⟨by simp, ?_, rfl, ?_⟩
            · intro row hrow
              simp only [List.mem_map, List.mem_range] at hrow
              obtain ⟨i, _, hi⟩ := hrow
              rw [← hi]
              simp
            · intro i j hi hj
              rw [List.range_eq_range' (P.N + 1), getD_map_range', if_pos (by omega)]
              rw [List.range_eq_range' (P.n * (pararealCoreRun P par).1), getD_map_range']
              rw [if_pos (by simpa using hj)]
              simp

/-- C10 witness: the concrete two-slice run returns its solution matrix
with `N + 1 = 3` rows and `n·k = 2` columns. -/
theorem parareal_output_shape_witness :
    Parareal PrbC10wit false = PyOutcome.ok resC10wit ∧
      resC10wit.u.length = PrbC10wit.N + 1 ∧
      resC10wit.k = (pararealCoreRun PrbC10wit false).1 :=
  ⟨by decide, (parareal_output_shape PrbC10wit false resC10wit (by decide)).1,
   (parareal_output_shape PrbC10wit false resC10wit (by decide)).2.2.1⟩
